import Mathlib

/-!
Shallow embedding of the similarity-ranking engine of `celebrityanalysis.py`
(the `/analyze` endpoint): paginated corpus retrieval, Euclidean distance,
min-max score normalization, stable descending sort, top-K selection and
2-decimal rounding.  Distances and scores are modelled as rationals; the
Euclidean distance itself (an irrational square root in general) is passed
in as a parameter `distf` and characterised by `0 ≤ distf a b` together
with `(distf a b) ^ 2 = sq_distance a b`.
-/

attribute [local semireducible] Rat.add Rat.mul Rat.inv Rat.sub

namespace CelebAPI

/-- One row of the `celebritydataset` table: `name, embedding, image_url`
(source lines 62-64). -/
structure CatalogRecord where
  name : String
  image_url : String
  embedding : List ℚ
deriving DecidableEq, Repr

/-- A corpus entry paired with its distance to the query
(the dict built at source line 106). -/
structure Candidate where
  name : String
  image_url : String
  distance : ℚ
deriving DecidableEq, Repr

/-- A candidate after the score has been added (source line 125). -/
structure Scored where
  name : String
  image_url : String
  distance : ℚ
  score : ℚ
deriving DecidableEq, Repr

/-- The `CelebrityResult` pydantic model (source lines 35-39). -/
structure CelebrityResult where
  rank : ℕ
  name : String
  similarity : ℚ
  image_url : String
deriving DecidableEq, Repr

/-- An `HTTPException`: status code and detail string. -/
structure HTTPError where
  status : ℕ
  detail : String
deriving DecidableEq, Repr

/-- Sum of squared componentwise differences: the square of
`np.linalg.norm(a - b)` from `euclidean_distance` (source lines 48-49). -/
def sq_distance (a b : List ℚ) : ℚ :=
  (List.zipWith (fun x y => (x - y) ^ 2) a b).sum

/-- The Euclidean distance of one-element vectors, `sqrt((x-y)^2) = |x-y|`,
which is rational; used to instantiate `distf` on concrete inputs. -/
def absDist (a b : List ℚ) : ℚ := |a.headD 0 - b.headD 0|

/-- Python `min()` of a list (never applied to `[]` in the engine). -/
def listMin : List ℚ → ℚ
  | [] => 0
  | x :: xs => xs.foldl min x

/-- Python `max()` of a list (never applied to `[]` in the engine). -/
def listMax : List ℚ → ℚ
  | [] => 0
  | x :: xs => xs.foldl max x

/-- Round to the nearest integer, ties to the even integer: the exact
semantics of Python `round` on the rational value of its argument. -/
def roundHalfEven (q : ℚ) : ℤ :=
  if q - ⌊q⌋ < 1 / 2 then ⌊q⌋
  else if 1 / 2 < q - ⌊q⌋ then ⌊q⌋ + 1
  else if ⌊q⌋ % 2 = 0 then ⌊q⌋ else ⌊q⌋ + 1

/-- Python `round(q, 2)` (source line 136). -/
def round2 (q : ℚ) : ℚ := (roundHalfEven (100 * q) : ℚ) / 100

/-- `compute_normalized_score` (source lines 118-121), with the enclosing
scope's `min_distance` and `max_distance` passed explicitly. -/
def compute_normalized_score (min_distance max_distance distance : ℚ) : ℚ :=
  if max_distance = min_distance then 10
  else 10 * (max_distance - distance) / (max_distance - min_distance)

/-- The candidate-building loop (source lines 101-106): entries whose
embedding shape differs from the query's are skipped, the others get
`distance = distf user embedding`. -/
def buildCandidates (distf : List ℚ → List ℚ → ℚ) (user : List ℚ) :
    List CatalogRecord → List Candidate
  | [] => []
  | r :: rs =>
    if r.embedding.length = user.length then
      ⟨r.name, r.image_url, distf user r.embedding⟩ :: buildCandidates distf user rs
    else buildCandidates distf user rs

/-- `get_celebrity_chunk` (source lines 60-68): the supabase range
`[offset, offset + limit - 1]` inclusive, i.e. the half-open window
`[offset, offset + limit)` of the table. -/
def get_celebrity_chunk (corpus : List CatalogRecord) (offset limit : ℕ) :
    List CatalogRecord :=
  (corpus.drop offset).take limit

/-- `chunk_size` (source line 94). -/
def chunk_size : ℕ := 1000

/-- The pagination `while` loop (source lines 96-108), structurally
recursive on a fuel argument that `fetchPages` instantiates large enough
to never run out.  Returns the accumulated records and the number of
page fetches issued. -/
def fetchPagesAux (corpus : List CatalogRecord) (total : ℤ) :
    ℕ → ℕ → List CatalogRecord × ℕ
  | 0, _ => ([], 0)
  | fuel + 1, offset =>
    if (offset : ℤ) < total then
      let records := get_celebrity_chunk corpus offset chunk_size
      if records.isEmpty then ([], 1)
      else
        let rest := fetchPagesAux corpus total fuel (offset + chunk_size)
        (records ++ rest.1, rest.2 + 1)
    else ([], 0)

/-- The pagination loop from `offset = 0`.  The loop advances `offset` by
`chunk_size` each iteration and stops once `offset ≥ total`, so it
iterates at most `total.toNat / chunk_size + 1` times; that fuel is
sufficient and the fuel value never influences the result. -/
def fetchPages (corpus : List CatalogRecord) (total : ℤ) :
    List CatalogRecord × ℕ :=
  fetchPagesAux corpus total (total.toNat / chunk_size + 1) 0

/-- The possible outcomes of the supabase count query used by
`get_total_record_count` (source lines 51-58). -/
inductive CountResponse where
  | ok (record_count : ℤ)
  | missing
  | fail (msg : String)
deriving DecidableEq, Repr

/-- `get_total_record_count` (source lines 51-58).  A falsy `response.data`
raises a 404 inside the `try`, which the `except Exception` clause wraps
into the 500; any other failure is wrapped the same way. -/
def get_total_record_count : CountResponse → Except HTTPError ℤ
  | .ok n => .ok n
  | .missing =>
    .error ⟨500, "Error fetching record count: 404: Record count not found"⟩
  | .fail m => .error ⟨500, "Error fetching record count: " ++ m⟩

/-- Python list slicing `l[:k]` (source line 129): a nonnegative `k` takes
the first `k` elements, a negative `k` drops the last `|k|`. -/
def pySlice {α : Type} (k : ℤ) (l : List α) : List α :=
  if k < 0 then l.take ((l.length : ℤ) + k).toNat else l.take k.toNat

/-- Insert into a list already sorted by descending score, after every
element of greater-or-equal score: the insertion step of a stable
descending sort. -/
def insertDesc (x : Scored) : List Scored → List Scored
  | [] => [x]
  | y :: ys => if y.score ≤ x.score then x :: y :: ys else y :: insertDesc x ys

/-- Stable sort by descending score.  Python's
`sorted(candidates, key=lambda x: x["score"], reverse=True)`
(source line 128) is a stable descending sort; every stable descending
sort computes the same list, and insertion sort is one. -/
def sortDesc : List Scored → List Scored
  | [] => []
  | x :: xs => insertDesc x (sortDesc xs)

/-- Score assignment (source lines 113-125): `min`/`max` of the distance
list, then `compute_normalized_score` applied to every candidate. -/
def scoreCandidates (candidates : List Candidate) : List Scored :=
  let distances := candidates.map Candidate.distance
  let min_distance := listMin distances
  let max_distance := listMax distances
  candidates.map fun c =>
    ⟨c.name, c.image_url, c.distance,
      compute_normalized_score min_distance max_distance c.distance⟩

/-- The `enumerate` loop building `CelebrityResult`s (source lines
131-138): rank is the 1-based index, similarity the rounded score. -/
def mkResults : ℕ → List Scored → List CelebrityResult
  | _, [] => []
  | i, c :: cs => ⟨i + 1, c.name, round2 c.score, c.image_url⟩ :: mkResults (i + 1) cs

/-- Source lines 110-140: the no-candidate check, normalization, stable
descending sort, top-`num_results` slice and result construction. -/
def rankCandidates (candidates : List Candidate) (num_results : ℤ) :
    Except HTTPError (List CelebrityResult) :=
  if candidates.isEmpty then
    .error ⟨404, "No matching celebrity records found."⟩
  else
    let sorted_candidates := sortDesc (scoreCandidates candidates)
    let top_results := pySlice num_results sorted_candidates
    .ok (mkResults 0 top_results)

/-- `analyze_face` from the point where the query encoding exists
(source lines 92-140): count query, pagination, candidate building with
dimension-mismatch skipping, then ranking.  `distf` stands for
`euclidean_distance`. -/
def analyze_face (distf : List ℚ → List ℚ → ℚ) (countResp : CountResponse)
    (corpus : List CatalogRecord) (user_encoding : List ℚ)
    (num_results : ℤ) : Except HTTPError (List CelebrityResult) := do
  let total_records ← get_total_record_count countResp
  let records := (fetchPages corpus total_records).1
  let candidates := buildCandidates distf user_encoding records
  rankCandidates candidates num_results

/-! ### Helper lemmas: Python `min` / `max` of a list -/

theorem foldl_min_spec (l : List ℚ) (a : ℚ) :
    (l.foldl min a = a ∨ l.foldl min a ∈ l) ∧ l.foldl min a ≤ a ∧
      ∀ x ∈ l, l.foldl min a ≤ x := by
  induction l generalizing a with
  | nil => simp
  | cons y ys ih =>
    have h1 := (ih (min a y)).1
    have h2 := (ih (min a y)).2.1
    have h3 := (ih (min a y)).2.2
    simp only [List.foldl_cons]
    refine ⟨?_, le_trans h2 (min_le_left a y), ?_⟩
    · rcases h1 with h | h
      · rcases min_choice a y with hc | hc
        · exact Or.inl (h.trans hc)
        · rw [h, hc]
          exact Or.inr (List.mem_cons_self y ys)
      · exact Or.inr (List.mem_cons_of_mem y h)
    · intro x hx
      rcases List.mem_cons.mp hx with hx | hx
      · rw [hx]
        exact le_trans h2 (min_le_right a y)
      · exact h3 x hx

theorem foldl_max_spec (l : List ℚ) (a : ℚ) :
    (l.foldl max a = a ∨ l.foldl max a ∈ l) ∧ a ≤ l.foldl max a ∧
      ∀ x ∈ l, x ≤ l.foldl max a := by
  induction l generalizing a with
  | nil => simp
  | cons y ys ih =>
    have h1 := (ih (max a y)).1
    have h2 := (ih (max a y)).2.1
    have h3 := (ih (max a y)).2.2
    simp only [List.foldl_cons]
    refine ⟨?_, le_trans (le_max_left a y) h2, ?_⟩
    · rcases h1 with h | h
      · rcases max_choice a y with hc | hc
        · exact Or.inl (h.trans hc)
        · rw [h, hc]
          exact Or.inr (List.mem_cons_self y ys)
      · exact Or.inr (List.mem_cons_of_mem y h)
    · intro x hx
      rcases List.mem_cons.mp hx with hx | hx
      · rw [hx]
        exact le_trans (le_max_right a y) h2
      · exact h3 x hx

theorem listMin_mem {l : List ℚ} (h : l ≠ []) : listMin l ∈ l := by
  match l with
  | x :: xs =>
    simp only [listMin]
    rcases (foldl_min_spec xs x).1 with h1 | h1
    · rw [h1]
      exact List.mem_cons_self x xs
    · exact List.mem_cons_of_mem x h1

theorem listMin_le {l : List ℚ} {x : ℚ} (hx : x ∈ l) : listMin l ≤ x := by
  match l with
  | y :: ys =>
    simp only [listMin]
    rcases List.mem_cons.mp hx with h | h
    · rw [h]
      exact (foldl_min_spec ys y).2.1
    · exact (foldl_min_spec ys y).2.2 x h

theorem listMax_mem {l : List ℚ} (h : l ≠ []) : listMax l ∈ l := by
  match l with
  | x :: xs =>
    simp only [listMax]
    rcases (foldl_max_spec xs x).1 with h1 | h1
    · rw [h1]
      exact List.mem_cons_self x xs
    · exact List.mem_cons_of_mem x h1

theorem le_listMax {l : List ℚ} {x : ℚ} (hx : x ∈ l) : x ≤ listMax l := by
  match l with
  | y :: ys =>
    simp only [listMax]
    rcases List.mem_cons.mp hx with h | h
    · rw [h]
      exact (foldl_max_spec ys y).2.1
    · exact (foldl_max_spec ys y).2.2 x h

/-! ### Helper lemmas: the stable descending insertion sort -/

theorem insertDesc_perm (x : Scored) (l : List Scored) :
    List.Perm (insertDesc x l) (x :: l) := by
  induction l with
  | nil => exact List.Perm.refl _
  | cons y ys ih =>
    by_cases h : y.score ≤ x.score
    · simp [insertDesc, h]
    · simp only [insertDesc, h, if_false]
      exact (ih.cons y).trans (List.Perm.swap x y ys)

theorem sortDesc_perm (l : List Scored) : List.Perm (sortDesc l) l := by
  induction l with
  | nil => exact List.Perm.refl _
  | cons x xs ih => exact (insertDesc_perm x (sortDesc xs)).trans (ih.cons x)

theorem mem_sortDesc {l : List Scored} {x : Scored} :
    x ∈ sortDesc l ↔ x ∈ l := (sortDesc_perm l).mem_iff

theorem insertDesc_pairwise {l : List Scored} (x : Scored)
    (h : l.Pairwise (fun a b => b.score ≤ a.score)) :
    (insertDesc x l).Pairwise (fun a b => b.score ≤ a.score) := by
  induction l with
  | nil => simp [insertDesc]
  | cons y ys ih =>
    rw [List.pairwise_cons] at h
    by_cases hc : y.score ≤ x.score
    · simp only [insertDesc, hc, if_true]
      rw [List.pairwise_cons]
      refine ⟨?_, List.pairwise_cons.mpr h⟩
      intro b hb
      rcases List.mem_cons.mp hb with hb | hb
      · rw [hb]
        exact hc
      · exact le_trans (h.1 b hb) hc
    · simp only [insertDesc, hc, if_false]
      rw [List.pairwise_cons]
      refine ⟨?_, ih h.2⟩
      intro b hb
      have hb2 : b ∈ x :: ys := (insertDesc_perm x ys).mem_iff.mp hb
      rcases List.mem_cons.mp hb2 with hb2 | hb2
      · rw [hb2]
        exact le_of_lt (lt_of_not_le hc)
      · exact h.1 b hb2

theorem sortDesc_sorted (l : List Scored) :
    (sortDesc l).Pairwise (fun a b => b.score ≤ a.score) := by
  induction l with
  | nil => simp [sortDesc]
  | cons x xs ih => exact insertDesc_pairwise x ih

theorem sublist_insertDesc (x : Scored) (l : List Scored) :
    List.Sublist l (insertDesc x l) := by
  induction l with
  | nil => simp [insertDesc]
  | cons y ys ih =>
    by_cases h : y.score ≤ x.score
    · simp only [insertDesc, h, if_true]
      exact List.sublist_cons_self x (y :: ys)
    · simp only [insertDesc, h, if_false]
      exact ih.cons₂ y

theorem sublist_insertDesc_of_mem {a b : Scored} {s : List Scored}
    (hb : b ∈ s) (hscore : b.score ≤ a.score) :
    List.Sublist [a, b] (insertDesc a s) := by
  induction s with
  | nil => cases hb
  | cons y ys ih =>
    by_cases hc : y.score ≤ a.score
    · simp only [insertDesc, hc, if_true]
      exact (List.singleton_sublist.mpr hb).cons₂ a
    · simp only [insertDesc, hc, if_false]
      rcases List.mem_cons.mp hb with hb1 | hb1
      · exact absurd (le_trans (hb1 ▸ le_refl y.score) hscore) hc
      · exact (ih hb1).cons y

theorem sortDesc_stable {a b : Scored} {l : List Scored}
    (hab : List.Sublist [a, b] l) (hscore : b.score ≤ a.score) :
    List.Sublist [a, b] (sortDesc l) := by
  induction l with
  | nil => cases hab
  | cons y ys ih =>
    cases hab with
    | cons _ h => exact (ih h).trans (sublist_insertDesc y (sortDesc ys))
    | cons₂ _ h =>
      exact sublist_insertDesc_of_mem
        (mem_sortDesc.mpr (List.singleton_sublist.mp h)) hscore

theorem sortDesc_length (l : List Scored) : (sortDesc l).length = l.length :=
  (sortDesc_perm l).length_eq

/-! ### Helper lemmas: result construction and rounding -/

theorem mkResults_length (i : ℕ) (l : List Scored) :
    (mkResults i l).length = l.length := by
  induction l generalizing i with
  | nil => rfl
  | cons c cs ih => simp [mkResults, ih]

theorem mkResults_get (i : ℕ) (l : List Scored) (j : ℕ) (hj : j < l.length) :
    (mkResults i l).get ⟨j, by rw [mkResults_length]; exact hj⟩ =
      ⟨i + j + 1, (l.get ⟨j, hj⟩).name, round2 (l.get ⟨j, hj⟩).score,
        (l.get ⟨j, hj⟩).image_url⟩ := by
  induction l generalizing i j with
  | nil => cases hj
  | cons c cs ih =>
    cases j with
    | zero => rfl
    | succ j =>
      have hj2 : j < cs.length := Nat.lt_of_succ_lt_succ hj
      have step := ih (i + 1) j hj2
      have harith : i + 1 + j + 1 = i + (j + 1) + 1 := by omega
      simpa [mkResults, harith] using step

theorem roundHalfEven_bounds (q : ℚ) :
    ⌊q⌋ ≤ roundHalfEven q ∧ roundHalfEven q ≤ ⌊q⌋ + 1 := by
  unfold roundHalfEven
  split_ifs <;> omega

theorem roundHalfEven_mono {q r : ℚ} (h : q ≤ r) :
    roundHalfEven q ≤ roundHalfEven r := by
  rcases lt_or_eq_of_le (Int.floor_le_floor h) with hf | hf
  · calc roundHalfEven q ≤ ⌊q⌋ + 1 := (roundHalfEven_bounds q).2
      _ ≤ ⌊r⌋ := by omega
      _ ≤ roundHalfEven r := (roundHalfEven_bounds r).1
  · unfold roundHalfEven
    rw [hf]
    split_ifs <;> first | omega | linarith

theorem round2_mono {q r : ℚ} (h : q ≤ r) : round2 q ≤ round2 r := by
  unfold round2
  have h1 : roundHalfEven (100 * q) ≤ roundHalfEven (100 * r) :=
    roundHalfEven_mono (by linarith)
  have h2 : ((roundHalfEven (100 * q) : ℚ)) ≤ (roundHalfEven (100 * r) : ℚ) := by
    exact_mod_cast h1
  linarith

/-! ### Helper lemmas: slicing and pagination -/

theorem pySlice_of_nonneg {α : Type} {k : ℤ} (hk : 0 ≤ k) (l : List α) :
    pySlice k l = l.take k.toNat := by
  unfold pySlice
  rw [if_neg (not_lt.mpr hk)]

theorem fetchPagesAux_stop {corpus : List CatalogRecord} {total : ℤ}
    {offset : ℕ} (fuel : ℕ) (h : ¬((offset : ℤ) < total)) :
    fetchPagesAux corpus total fuel offset = ([], 0) := by
  cases fuel with
  | zero => rfl
  | succ fuel => simp [fetchPagesAux, h]

theorem fetchPagesAux_spec (corpus : List CatalogRecord) :
    ∀ (fuel offset : ℕ), offset < corpus.length →
      corpus.length - offset ≤ fuel * chunk_size →
      fetchPagesAux corpus (corpus.length : ℤ) fuel offset =
        (corpus.drop offset, (corpus.length - offset - 1) / chunk_size + 1) := by
  intro fuel
  induction fuel with
  | zero =>
    intro offset ho hr
    omega
  | succ fuel ih =>
    intro offset ho hr
    have hguard : (offset : ℤ) < (corpus.length : ℤ) := by exact_mod_cast ho
    have hdropne : corpus.drop offset ≠ [] := by
      rw [ne_eq, List.drop_eq_nil_iff_le]
      omega
    have hrecne : get_celebrity_chunk corpus offset chunk_size ≠ [] := by
      unfold get_celebrity_chunk
      rw [ne_eq, List.take_eq_nil_iff]
      simp [chunk_size, hdropne]
    rw [fetchPagesAux, if_pos hguard, if_neg (by simpa [List.isEmpty_iff] using hrecne)]
    by_cases hlast : corpus.length - offset ≤ chunk_size
    · rw [fetchPagesAux_stop fuel (by push_cast; simp [chunk_size] at hlast ⊢; omega)]
      have hlen : (corpus.drop offset).length ≤ chunk_size := by
        rw [List.length_drop]
        omega
      have htake : get_celebrity_chunk corpus offset chunk_size = corpus.drop offset := by
        unfold get_celebrity_chunk
        exact List.take_of_length_le hlen
      rw [htake]
      simp only [List.append_nil]
      have : (corpus.length - offset - 1) / chunk_size + 1 = 0 + 1 := by
        simp only [chunk_size] at hlast ⊢
        omega
      rw [this]
    · push_neg at hlast
      have hstep := ih (offset + chunk_size) (by omega) (by
        simp only [chunk_size] at hr hlast ⊢
        omega)
      rw [hstep]
      simp only [Prod.mk.injEq]
      refine ⟨?_, ?_⟩
      · unfold get_celebrity_chunk
        rw [← List.drop_drop]
        exact List.take_append_drop chunk_size (corpus.drop offset)
      · simp only [chunk_size] at hlast ⊢
        omega

theorem fetchPages_eq {corpus : List CatalogRecord} (h : corpus ≠ []) :
    fetchPages corpus (corpus.length : ℤ) =
      (corpus, (corpus.length - 1) / chunk_size + 1) := by
  unfold fetchPages
  have hlen : 0 < corpus.length := List.length_pos.mpr h
  have := fetchPagesAux_spec corpus
    ((corpus.length : ℤ).toNat / chunk_size + 1) 0 hlen
    (by simp only [Int.toNat_natCast, chunk_size]; omega)
  simpa using this

theorem fetchPages_nonpos {corpus : List CatalogRecord} {total : ℤ}
    (h : total ≤ 0) : fetchPages corpus total = ([], 0) := by
  unfold fetchPages
  exact fetchPagesAux_stop _ (by push_cast; omega)

/-! ### Helper lemmas: candidate construction and scoring -/

theorem buildCandidates_append (d : List ℚ → List ℚ → ℚ) (u : List ℚ)
    (l₁ l₂ : List CatalogRecord) :
    buildCandidates d u (l₁ ++ l₂) =
      buildCandidates d u l₁ ++ buildCandidates d u l₂ := by
  induction l₁ with
  | nil => rfl
  | cons r rs ih =>
    by_cases hr : r.embedding.length = u.length
    · simp [buildCandidates, hr, ih]
    · simp [buildCandidates, hr, ih]

theorem mem_buildCandidates {d : List ℚ → List ℚ → ℚ} {u : List ℚ}
    {rs : List CatalogRecord} {c : Candidate} :
    c ∈ buildCandidates d u rs ↔ ∃ r, r ∈ rs ∧
      r.embedding.length = u.length ∧
      c = ⟨r.name, r.image_url, d u r.embedding⟩ := by
  induction rs with
  | nil => simp [buildCandidates]
  | cons r rs ih =>
    by_cases hr : r.embedding.length = u.length
    · simp only [buildCandidates, hr, if_true, List.mem_cons, ih]
      constructor
      · rintro (hc | ⟨r2, hr2, hlen2, hc2⟩)
        · exact ⟨r, Or.inl rfl, hr, hc⟩
        · exact ⟨r2, Or.inr hr2, hlen2, hc2⟩
      · rintro ⟨r2, hr2, hlen2, hc2⟩
        rcases hr2 with hr2 | hr2
        · exact Or.inl (by rw [hc2, hr2])
        · exact Or.inr ⟨r2, hr2, hlen2, hc2⟩
    · simp only [buildCandidates, hr, if_false, ih]
      constructor
      · rintro ⟨r2, hr2, hlen2, hc2⟩
        exact ⟨r2, List.mem_cons_of_mem r hr2, hlen2, hc2⟩
      · rintro ⟨r2, hr2, hlen2, hc2⟩
        rcases List.mem_cons.mp hr2 with hr2a | hr2a
        · exact absurd (hr2a ▸ hlen2) hr
        · exact ⟨r2, hr2a, hlen2, hc2⟩

theorem sq_distance_self (a : List ℚ) : sq_distance a a = 0 := by
  unfold sq_distance
  induction a with
  | nil => rfl
  | cons x xs ih => simpa [List.zipWith] using ih

theorem length_scoreCandidates (cands : List Candidate) :
    (scoreCandidates cands).length = cands.length := by
  simp [scoreCandidates]

theorem mem_mkResults {i : ℕ} {l : List Scored} {x : CelebrityResult}
    (hx : x ∈ mkResults i l) :
    ∃ s, s ∈ l ∧ x.name = s.name ∧ x.image_url = s.image_url ∧
      x.similarity = round2 s.score := by
  induction l generalizing i with
  | nil => cases hx
  | cons c cs ih =>
    rcases List.mem_cons.mp hx with hx | hx
    · exact ⟨c, List.mem_cons_self c cs, by rw [hx], by rw [hx], by rw [hx]⟩
    · obtain ⟨s, hs, h1, h2, h3⟩ := ih hx
      exact ⟨s, List.mem_cons_of_mem c hs, h1, h2, h3⟩

theorem pySlice_sublist {α : Type} (k : ℤ) (l : List α) :
    List.Sublist (pySlice k l) l := by
  unfold pySlice
  split_ifs <;> exact List.take_sublist _ _

theorem round2_ten : round2 10 = 10 := by decide

/-! ### Claim theorems -/

/-- Claim C1: the engine takes the true minimum and maximum of the
candidate distance list; every candidate with distance `d` is scored
`10` when `max_d = min_d` and `10 * (max_d - d) / (max_d - min_d)`
otherwise; on the corpus with distances `0, 5, 10` and `num_results = 2`
the results are rank 1 "A" similarity 10.00 and rank 2 "B"
similarity 5.00. -/
theorem claim_C1_score_normalization :
    (∀ D : List ℚ, D ≠ [] → listMin D ∈ D ∧ listMax D ∈ D ∧
      ∀ d ∈ D, listMin D ≤ d ∧ d ≤ listMax D) ∧
    (∀ (cands : List Candidate) (c : Candidate), c ∈ cands →
      (⟨c.name, c.image_url, c.distance,
        if listMax (cands.map Candidate.distance) =
            listMin (cands.map Candidate.distance) then 10
        else 10 * (listMax (cands.map Candidate.distance) - c.distance) /
          (listMax (cands.map Candidate.distance) -
            listMin (cands.map Candidate.distance))⟩ : Scored)
        ∈ scoreCandidates cands) ∧
    rankCandidates [⟨"A", "urlA", 0⟩, ⟨"B", "urlB", 5⟩, ⟨"C", "urlC", 10⟩] 2 =
      .ok [⟨1, "A", 10, "urlA"⟩, ⟨2, "B", 5, "urlB"⟩] := by
  refine ⟨?_, ?_, by rfl⟩
  · intro D hD
    exact ⟨listMin_mem hD, listMax_mem hD, fun d hd => ⟨listMin_le hd, le_listMax hd⟩⟩
  · intro cands c hc
    unfold scoreCandidates compute_normalized_score
    exact List.mem_map.mpr ⟨c, hc, rfl⟩

/-- Claim C1 witness: the scoring facts evaluated on the concrete distance
list `[0, 5, 10]` and the concrete three-candidate corpus. -/
theorem claim_C1_score_normalization_witness :
    (listMin [0, 5, 10] ∈ ([0, 5, 10] : List ℚ) ∧
      listMax [0, 5, 10] ∈ ([0, 5, 10] : List ℚ) ∧
      ∀ d ∈ ([0, 5, 10] : List ℚ),
        listMin [0, 5, 10] ≤ d ∧ d ≤ listMax [0, 5, 10]) ∧
    rankCandidates [⟨"A", "urlA", 0⟩, ⟨"B", "urlB", 5⟩, ⟨"C", "urlC", 10⟩] 2 =
      .ok [⟨1, "A", 10, "urlA"⟩, ⟨2, "B", 5, "urlB"⟩] :=
  ⟨claim_C1_score_normalization.1 [0, 5, 10] (by decide),
   claim_C1_score_normalization.2.2⟩

/-- Claim C3 counterexample: a request with `num_results = 0 < 1` is not
rejected with any error: the engine performs the count query, the corpus
fetch and the distance work, and returns `ok []`. -/
theorem claim_C3_counterexample :
    analyze_face absDist (.ok 1) [⟨"A", "urlA", [1]⟩] [0] 0 = .ok [] := by rfl

/-- Claim C3 (amended): the engine never validates `num_results`: a request
with `num_results < 1` and at least one valid candidate is not rejected
(it returns `ok`), and with `num_results = 0` the result list is empty. -/
theorem claim_C3_amended (cands : List Candidate) (k : ℤ)
    (hne : cands ≠ []) (hk : k < 1) :
    (∃ res, rankCandidates cands k = .ok res) ∧
    rankCandidates cands 0 = .ok [] := by
  have hempty : cands.isEmpty = false := by
    rw [List.isEmpty_eq_false_iff_exists_mem]
    cases cands with
    | nil => exact absurd rfl hne
    | cons c cs => exact ⟨c, List.mem_cons_self c cs⟩
  constructor
  · refine ⟨mkResults 0 (pySlice k (sortDesc (scoreCandidates cands))), ?_⟩
    unfold rankCandidates
    rw [if_neg (by simp [hempty])]
  · unfold rankCandidates
    rw [if_neg (by simp [hempty])]
    show Except.ok (mkResults 0 (pySlice 0 (sortDesc (scoreCandidates cands)))) =
      Except.ok []
    rw [pySlice_of_nonneg le_rfl]
    rfl

/-- Claim C3 amended witness: evaluated at a one-candidate list and
`num_results = -1` and `0`. -/
theorem claim_C3_amended_witness :
    (∃ res, rankCandidates [⟨"A", "urlA", (1 : ℚ)⟩] (-1) = .ok res) ∧
    rankCandidates [⟨"A", "urlA", (1 : ℚ)⟩] 0 = .ok [] :=
  claim_C3_amended [⟨"A", "urlA", (1 : ℚ)⟩] (-1) (by decide) (by decide)

/-- Claim C4 counterexample: with a *determined* total record count of
zero the engine does not fail with a corpus-retrieval error: it proceeds
(the pagination loop runs zero iterations) and fails with the 404
"No matching celebrity records found." error — exactly the NoMatchError of
the empty-candidate case, not a distinct corpus error. -/
theorem claim_C4_counterexample :
    analyze_face absDist (.ok 0) [] [0] 8 =
      .error ⟨404, "No matching celebrity records found."⟩ := by rfl

/-- Claim C4 (amended): when the total record count cannot be determined
(count response missing or the count query failing) the request fails with
the 500 count-retrieval error before producing any results; when the count
is determined to be zero the request instead runs to the empty-candidate
check and fails with the 404 NoMatch error. -/
theorem claim_C4_amended (distf : List ℚ → List ℚ → ℚ)
    (corpus : List CatalogRecord) (user : List ℚ) (k : ℤ) (m : String) :
    analyze_face distf .missing corpus user k =
      .error ⟨500, "Error fetching record count: 404: Record count not found"⟩ ∧
    analyze_face distf (.fail m) corpus user k =
      .error ⟨500, "Error fetching record count: " ++ m⟩ ∧
    analyze_face distf (.ok 0) corpus user k =
      .error ⟨404, "No matching celebrity records found."⟩ := by
  refine ⟨rfl, rfl, ?_⟩
  show rankCandidates (buildCandidates distf user (fetchPages corpus 0).1) k = _
  rw [fetchPages_nonpos le_rfl]
  rfl

/-- Claim C5: `get_celebrity_chunk` returns the half-open index window
`[offset, offset + limit)`; the loop starts at offset 0, advances by the
page size 1000 while `offset < total` and stops early on an empty page;
with the count equal to the corpus size it accumulates the whole corpus
(before any sorting) in `(T - 1) / 1000 + 1` page fetches — so a corpus of
2500 records takes exactly 3 fetches and a corpus of exactly 1000 takes
exactly 1 (no extra fetch at offset 1000). -/
theorem claim_C5_pagination :
    (∀ (corpus : List CatalogRecord) (offset limit i : ℕ), i < limit →
      (get_celebrity_chunk corpus offset limit).get? i =
        corpus.get? (offset + i)) ∧
    (∀ corpus : List CatalogRecord, corpus ≠ [] →
      fetchPages corpus (corpus.length : ℤ) =
        (corpus, (corpus.length - 1) / chunk_size + 1)) ∧
    (∀ corpus : List CatalogRecord, corpus.length = 2500 →
      (fetchPages corpus 2500).1 = corpus ∧ (fetchPages corpus 2500).2 = 3) ∧
    (∀ corpus : List CatalogRecord, corpus.length = 1000 →
      (fetchPages corpus 1000).1 = corpus ∧ (fetchPages corpus 1000).2 = 1) := by
  have hwin : ∀ (corpus : List CatalogRecord) (offset limit i : ℕ), i < limit →
      (get_celebrity_chunk corpus offset limit).get? i =
        corpus.get? (offset + i) := by
    intro corpus offset limit i hi
    unfold get_celebrity_chunk
    rw [List.get?_take hi, List.get?_drop]
  have hmain : ∀ corpus : List CatalogRecord, corpus ≠ [] →
      fetchPages corpus (corpus.length : ℤ) =
        (corpus, (corpus.length - 1) / chunk_size + 1) := fun _ h => fetchPages_eq h
  refine ⟨hwin, hmain, ?_, ?_⟩
  · intro corpus hlen
    have hne : corpus ≠ [] := by
      intro h
      rw [h] at hlen
      cases hlen
    have := hmain corpus hne
    rw [hlen] at this
    rw [(by exact_mod_cast rfl : ((2500 : ℕ) : ℤ) = (2500 : ℤ))] at this
    rw [this]
    exact ⟨rfl, rfl⟩
  · intro corpus hlen
    have hne : corpus ≠ [] := by
      intro h
      rw [h] at hlen
      cases hlen
    have := hmain corpus hne
    rw [hlen] at this
    rw [(by exact_mod_cast rfl : ((1000 : ℕ) : ℤ) = (1000 : ℤ))] at this
    rw [this]
    exact ⟨rfl, rfl⟩

/-- Claim C5 witness: the fetch counts evaluated on concrete corpora of
2500 and 1000 records, and the window fact at a concrete index. -/
theorem claim_C5_pagination_witness :
    (fetchPages (List.replicate 2500 (⟨"", "", []⟩ : CatalogRecord)) 2500).2 = 3 ∧
    (fetchPages (List.replicate 1000 (⟨"", "", []⟩ : CatalogRecord)) 1000).2 = 1 ∧
    (get_celebrity_chunk [⟨"a", "", []⟩, ⟨"b", "", []⟩, ⟨"c", "", []⟩] 1 2).get? 0 =
      some ⟨"b", "", []⟩ :=
  ⟨(claim_C5_pagination.2.2.1 _ (by rw [List.length_replicate])).2,
   (claim_C5_pagination.2.2.2 _ (by rw [List.length_replicate])).2,
   by rw [claim_C5_pagination.1 _ 1 2 0 (by decide)]; rfl⟩

/-- Claim C8: the normalized score is corpus-relative, not absolute:
adding one distant outlier "Z" changes the score of the unchanged
candidate "B" (absolute distance 3 to the query in both corpora) from
5.00 to 8.33. -/
theorem claim_C8_corpus_relative :
    analyze_face absDist (.ok 3)
      [⟨"A", "uA", [1]⟩, ⟨"B", "uB", [3]⟩, ⟨"C", "uC", [5]⟩] [0] 3 =
      .ok [⟨1, "A", 10, "uA"⟩, ⟨2, "B", 5, "uB"⟩, ⟨3, "C", 0, "uC"⟩] ∧
    analyze_face absDist (.ok 4)
      [⟨"A", "uA", [1]⟩, ⟨"B", "uB", [3]⟩, ⟨"C", "uC", [5]⟩,
       ⟨"Z", "uZ", [13]⟩] [0] 4 =
      .ok [⟨1, "A", 10, "uA"⟩, ⟨2, "B", 833 / 100, "uB"⟩,
           ⟨3, "C", 667 / 100, "uC"⟩, ⟨4, "Z", 0, "uZ"⟩] ∧
    (5 : ℚ) ≠ 833 / 100 :=
  ⟨by rfl, by rfl, by decide⟩

/-- Claim C6: a catalog entry whose embedding dimension differs from the
query's is skipped without error and never appears in the results; every
candidate (and hence every result) comes from a matching-dimension entry,
and a matching entry's candidate distance is the Euclidean distance: it is
nonnegative and its square is the sum of squared componentwise
differences. -/
theorem claim_C6_dimension_and_distance (distf : List ℚ → List ℚ → ℚ)
    (user : List ℚ) (records : List CatalogRecord) (k : ℤ)
    (hdist : ∀ r ∈ records, r.embedding.length = user.length →
      0 ≤ distf user r.embedding ∧
      distf user r.embedding ^ 2 = sq_distance user r.embedding) :
    (∀ c ∈ buildCandidates distf user records, ∃ r, r ∈ records ∧
      r.embedding.length = user.length ∧ c.name = r.name ∧
      c.image_url = r.image_url ∧ c.distance = distf user r.embedding ∧
      0 ≤ c.distance ∧ c.distance ^ 2 = sq_distance user r.embedding) ∧
    ((∀ r ∈ records, r.embedding.length ≠ user.length) →
      buildCandidates distf user records = []) ∧
    (∀ res, rankCandidates (buildCandidates distf user records) k = .ok res →
      ∀ x ∈ res, ∃ r, r ∈ records ∧ r.embedding.length = user.length ∧
        x.name = r.name ∧ x.image_url = r.image_url) := by
  have hcand : ∀ c ∈ buildCandidates distf user records, ∃ r, r ∈ records ∧
      r.embedding.length = user.length ∧ c.name = r.name ∧
      c.image_url = r.image_url ∧ c.distance = distf user r.embedding ∧
      0 ≤ c.distance ∧ c.distance ^ 2 = sq_distance user r.embedding := by
    intro c hc
    obtain ⟨r, hr, hlen, hceq⟩ := mem_buildCandidates.mp hc
    obtain ⟨hd0, hd2⟩ := hdist r hr hlen
    exact ⟨r, hr, hlen, by rw [hceq], by rw [hceq], by rw [hceq],
      by rw [hceq]; exact hd0, by rw [hceq]; exact hd2⟩
  refine ⟨hcand, ?_, ?_⟩
  · intro hall
    cases hb : buildCandidates distf user records with
    | nil => rfl
    | cons c cs =>
      obtain ⟨r, hr, hlen, _⟩ := mem_buildCandidates.mp
        (hb ▸ List.mem_cons_self c cs)
      exact absurd hlen (hall r hr)
  · intro res hres x hx
    unfold rankCandidates at hres
    by_cases hempty : (buildCandidates distf user records).isEmpty
    · rw [if_pos hempty] at hres
      cases hres
    · rw [if_neg hempty] at hres
      have hres2 : res = mkResults 0 (pySlice k
          (sortDesc (scoreCandidates (buildCandidates distf user records)))) :=
        (Except.ok.injEq _ _).mp hres.symm
      rw [hres2] at hx
      obtain ⟨s, hs, hname, hurl, _⟩ := mem_mkResults hx
      have hs2 : s ∈ sortDesc (scoreCandidates (buildCandidates distf user records)) :=
        (pySlice_sublist k _).mem hs
      have hs3 : s ∈ scoreCandidates (buildCandidates distf user records) :=
        mem_sortDesc.mp hs2
      obtain ⟨c, hc, hceq⟩ := List.mem_map.mp hs3
      obtain ⟨r, hr, hlen, hcn, hcu, _⟩ := hcand c hc
      refine ⟨r, hr, hlen, ?_, ?_⟩
      · rw [hname, ← hceq, ← hcn]
      · rw [hurl, ← hceq, ← hcu]

/-- Claim C6 witness: a corpus whose only entry has dimension 2 against a
one-dimensional query yields no candidates at all (the entry is skipped,
no error is raised). -/
theorem claim_C6_dimension_and_distance_witness :
    buildCandidates absDist [0] [⟨"M", "uM", [1, 2]⟩] = [] :=
  (claim_C6_dimension_and_distance absDist [0] [⟨"M", "uM", [1, 2]⟩] 8
    (by decide)).2.1 (by decide)

/-- Claim C9: a negative `num_results` raises no error: the slice keeps
the first `max(n + num_results, 0)` entries of the score-sorted candidate
list (Python negative-slice semantics) and the ranks are renumbered from
1 upward. -/
theorem claim_C9_negative_num_results (cands : List Candidate) (k : ℤ)
    (hne : cands ≠ []) (hk : k < 0) :
    ∃ res, rankCandidates cands k = .ok res ∧
      res = mkResults 0 ((sortDesc (scoreCandidates cands)).take
        (((cands.length : ℤ) + k).toNat)) ∧
      res.length = (((cands.length : ℤ) + k).toNat) ∧
      ∀ i (hi : i < res.length), (res.get ⟨i, hi⟩).rank = i + 1 := by
  have hempty : cands.isEmpty = false := by
    cases cands with
    | nil => exact absurd rfl hne
    | cons c cs => rfl
  have hlen : (sortDesc (scoreCandidates cands)).length = cands.length := by
    rw [sortDesc_length, length_scoreCandidates]
  have hslice : pySlice k (sortDesc (scoreCandidates cands)) =
      (sortDesc (scoreCandidates cands)).take (((cands.length : ℤ) + k).toNat) := by
    unfold pySlice
    rw [if_pos hk, hlen]
  refine ⟨mkResults 0 ((sortDesc (scoreCandidates cands)).take
    (((cands.length : ℤ) + k).toNat)), ?_, rfl, ?_, ?_⟩
  · unfold rankCandidates
    rw [if_neg (by simp [hempty])]
    show Except.ok (mkResults 0 (pySlice k (sortDesc (scoreCandidates cands)))) = _
    rw [hslice]
  · rw [mkResults_length, List.length_take, hlen]
    omega
  · intro i hi
    have hi2 : i < ((sortDesc (scoreCandidates cands)).take
        (((cands.length : ℤ) + k).toNat)).length := by
      rw [mkResults_length] at hi
      exact hi
    have := mkResults_get 0 _ i hi2
    rw [this]
    simp

/-- Claim C9 witness: two candidates and `num_results = -1`: the single
lowest-scoring candidate is dropped and the remaining one is rank 1. -/
theorem claim_C9_negative_num_results_witness :
    ∃ res, rankCandidates [⟨"A", "uA", (1 : ℚ)⟩, ⟨"B", "uB", (3 : ℚ)⟩] (-1) =
        .ok res ∧
      res = mkResults 0 ((sortDesc (scoreCandidates
        [⟨"A", "uA", (1 : ℚ)⟩, ⟨"B", "uB", (3 : ℚ)⟩])).take
        (((([⟨"A", "uA", (1 : ℚ)⟩, ⟨"B", "uB", (3 : ℚ)⟩] :
            List Candidate).length : ℤ) + (-1)).toNat)) ∧
      res.length = (((([⟨"A", "uA", (1 : ℚ)⟩, ⟨"B", "uB", (3 : ℚ)⟩] :
          List Candidate).length : ℤ) + (-1)).toNat) ∧
      ∀ i (hi : i < res.length), (res.get ⟨i, hi⟩).rank = i + 1 :=
  claim_C9_negative_num_results [⟨"A", "uA", (1 : ℚ)⟩, ⟨"B", "uB", (3 : ℚ)⟩]
    (-1) (by decide) (by decide)

/-- Claim C10: the descending sort on scores is stable: two entries of the
scored candidate list with equal scores keep their candidate-list order
(which is corpus-fetch order) in the sorted list; and the ranking function
is deterministic: equal inputs give equal outputs. -/
theorem claim_C10_stable_sort (cands₁ cands₂ : List Candidate)
    (k₁ k₂ : ℤ) (a b : Scored)
    (hab : List.Sublist [a, b] (scoreCandidates cands₁))
    (heq : a.score = b.score)
    (hcands : cands₁ = cands₂) (hks : k₁ = k₂) :
    List.Sublist [a, b] (sortDesc (scoreCandidates cands₁)) ∧
    rankCandidates cands₁ k₁ = rankCandidates cands₂ k₂ :=
  ⟨sortDesc_stable hab (le_of_eq heq.symm), by rw [hcands, hks]⟩

/-- Claim C10 witness: candidates X and Z tie on score 0 (distances 2 and
2, min 1); X was fetched first and stays before Z after sorting. -/
theorem claim_C10_stable_sort_witness :
    List.Sublist
      [⟨"X", "uX", 2, 0⟩, ⟨"Z", "uZ", 2, 0⟩]
      (sortDesc (scoreCandidates
        [⟨"X", "uX", 2⟩, ⟨"Y", "uY", 1⟩, ⟨"Z", "uZ", 2⟩])) ∧
    rankCandidates [⟨"X", "uX", 2⟩, ⟨"Y", "uY", 1⟩, ⟨"Z", "uZ", 2⟩] 3 =
      rankCandidates [⟨"X", "uX", 2⟩, ⟨"Y", "uY", 1⟩, ⟨"Z", "uZ", 2⟩] 3 :=
  claim_C10_stable_sort
    [⟨"X", "uX", 2⟩, ⟨"Y", "uY", 1⟩, ⟨"Z", "uZ", 2⟩]
    [⟨"X", "uX", 2⟩, ⟨"Y", "uY", 1⟩, ⟨"Z", "uZ", 2⟩] 3 3
    ⟨"X", "uX", 2, 0⟩ ⟨"Z", "uZ", 2, 0⟩ (by decide) (by decide) rfl rfl

/-- Claim C2: with n ≥ 1 candidates and `num_results ≥ 1` the engine
returns ok with exactly `min(num_results, n)` results; the rank fields are
the strictly increasing sequence 1..k; the emitted list is the 2-decimal
rounding (`mkResults`) of a selection of the scored candidates that is
sorted by descending *unrounded* score, so consecutive similarities are
non-increasing. -/
theorem claim_C2_rank_shape (cands : List Candidate) (k : ℤ)
    (hne : cands ≠ []) (hk : 1 ≤ k) :
    ∃ res tops, rankCandidates cands k = .ok res ∧
      res = mkResults 0 tops ∧
      tops.Pairwise (fun a b => b.score ≤ a.score) ∧
      (∀ s ∈ tops, s ∈ scoreCandidates cands) ∧
      res.length = min k.toNat cands.length ∧
      (∀ i (hi : i < res.length), (res.get ⟨i, hi⟩).rank = i + 1) ∧
      (∀ i (hi : i + 1 < res.length) (hi2 : i < res.length),
        (res.get ⟨i + 1, hi⟩).similarity ≤ (res.get ⟨i, hi2⟩).similarity) := by
  have hempty : cands.isEmpty = false := by
    cases cands with
    | nil => exact absurd rfl hne
    | cons c cs => rfl
  have hsorted : (sortDesc (scoreCandidates cands)).Pairwise
      (fun a b => b.score ≤ a.score) := sortDesc_sorted _
  have hlen : (sortDesc (scoreCandidates cands)).length = cands.length := by
    rw [sortDesc_length, length_scoreCandidates]
  refine ⟨mkResults 0 (pySlice k (sortDesc (scoreCandidates cands))),
    pySlice k (sortDesc (scoreCandidates cands)), ?_, rfl, ?_, ?_, ?_, ?_, ?_⟩
  · unfold rankCandidates
    rw [if_neg (by simp [hempty])]
  · exact hsorted.sublist (pySlice_sublist k _)
  · intro s hs
    exact mem_sortDesc.mp ((pySlice_sublist k _).mem hs)
  · rw [mkResults_length, pySlice_of_nonneg (by omega), List.length_take, hlen]
  · intro i hi
    have hi2 : i < (pySlice k (sortDesc (scoreCandidates cands))).length := by
      rw [mkResults_length] at hi
      exact hi
    rw [mkResults_get 0 _ i hi2]
    simp
  · intro i hi hi2
    have hp : (pySlice k (sortDesc (scoreCandidates cands))).Pairwise
        (fun a b => b.score ≤ a.score) := hsorted.sublist (pySlice_sublist k _)
    have hi3 : i + 1 < (pySlice k (sortDesc (scoreCandidates cands))).length := by
      rw [mkResults_length] at hi
      exact hi
    have hi4 : i < (pySlice k (sortDesc (scoreCandidates cands))).length := by
      omega
    have hscore := List.pairwise_iff_get.mp hp ⟨i, hi4⟩ ⟨i + 1, hi3⟩
      (by exact Fin.mk_lt_mk.mpr (by omega))
    rw [mkResults_get 0 _ (i + 1) hi3, mkResults_get 0 _ i hi4]
    exact round2_mono hscore

/-- Claim C2 witness: evaluated at two candidates with `num_results = 1`. -/
theorem claim_C2_rank_shape_witness :
    ∃ res tops,
      rankCandidates [⟨"A", "uA", (1 : ℚ)⟩, ⟨"B", "uB", (3 : ℚ)⟩] 1 = .ok res ∧
      res = mkResults 0 tops ∧
      tops.Pairwise (fun a b => b.score ≤ a.score) ∧
      (∀ s ∈ tops, s ∈ scoreCandidates
        [⟨"A", "uA", (1 : ℚ)⟩, ⟨"B", "uB", (3 : ℚ)⟩]) ∧
      res.length = min (1 : ℤ).toNat
        ([⟨"A", "uA", (1 : ℚ)⟩, ⟨"B", "uB", (3 : ℚ)⟩] : List Candidate).length ∧
      (∀ i (hi : i < res.length), (res.get ⟨i, hi⟩).rank = i + 1) ∧
      (∀ i (hi : i + 1 < res.length) (hi2 : i < res.length),
        (res.get ⟨i + 1, hi⟩).similarity ≤ (res.get ⟨i, hi2⟩).similarity) :=
  claim_C2_rank_shape [⟨"A", "uA", (1 : ℚ)⟩, ⟨"B", "uB", (3 : ℚ)⟩] 1
    (by decide) (by decide)

theorem score_formula_zero_min {M : ℚ} :
    compute_normalized_score 0 M 0 = 10 := by
  unfold compute_normalized_score
  split_ifs with h
  · rfl
  · rw [sub_zero, mul_div_assoc, div_self (fun h0 => h h0), mul_one]

theorem score_formula_pos_lt {M d : ℚ} (hd : 0 < d) (hdM : d ≤ M) :
    compute_normalized_score 0 M d < 10 := by
  unfold compute_normalized_score
  have hM : 0 < M := lt_of_lt_of_le hd hdM
  rw [if_neg (fun h => absurd h (ne_of_gt hM)), sub_zero]
  rw [div_lt_iff hM]
  nlinarith

/-- The head of the ranking when one candidate has distance 0 and every
other candidate has strictly positive distance: that candidate is rank 1
with similarity exactly 10. -/
theorem rank_head_of_zero_strict_min (l₁ l₂ : List Candidate) (c : Candidate)
    (k : ℤ) (hzero : c.distance = 0)
    (hpos : ∀ x ∈ l₁ ++ l₂, 0 < x.distance) (hk : 1 ≤ k) :
    ∃ rest, rankCandidates (l₁ ++ c :: l₂) k =
      .ok (⟨1, c.name, 10, c.image_url⟩ :: rest) := by
  have hcmem : c ∈ l₁ ++ c :: l₂ :=
    List.mem_append.mpr (Or.inr (List.mem_cons_self c l₂))
  have hne : l₁ ++ c :: l₂ ≠ [] := by
    intro h
    rw [h] at hcmem
    cases hcmem
  have hempty : (l₁ ++ c :: l₂).isEmpty = false := by
    rw [List.isEmpty_eq_false_iff_exists_mem]
    exact ⟨c, hcmem⟩
  have hDmem : (0 : ℚ) ∈ (l₁ ++ c :: l₂).map Candidate.distance :=
    List.mem_map.mpr ⟨c, hcmem, hzero⟩
  have hDne : (l₁ ++ c :: l₂).map Candidate.distance ≠ [] := by
    intro h
    rw [h] at hDmem
    cases hDmem
  have hnonneg : ∀ d ∈ (l₁ ++ c :: l₂).map Candidate.distance, 0 ≤ d := by
    intro d hd
    obtain ⟨x, hx, hxd⟩ := List.mem_map.mp hd
    rcases List.mem_append.mp hx with hx1 | hx2
    · exact le_of_lt (hxd ▸ hpos x (List.mem_append.mpr (Or.inl hx1)))
    · rcases List.mem_cons.mp hx2 with hxc | hx2
      · rw [← hxd, hxc, hzero]
      · exact le_of_lt (hxd ▸ hpos x (List.mem_append.mpr (Or.inr hx2)))
  have hmin : listMin ((l₁ ++ c :: l₂).map Candidate.distance) = 0 :=
    le_antisymm (listMin_le hDmem) (hnonneg _ (listMin_mem hDne))
  have hsc : scoreCandidates (l₁ ++ c :: l₂) =
      (l₁ ++ c :: l₂).map (fun x =>
        ⟨x.name, x.image_url, x.distance,
          compute_normalized_score
            (listMin ((l₁ ++ c :: l₂).map Candidate.distance))
            (listMax ((l₁ ++ c :: l₂).map Candidate.distance))
            x.distance⟩) := rfl
  have hscoreC : compute_normalized_score
      (listMin ((l₁ ++ c :: l₂).map Candidate.distance))
      (listMax ((l₁ ++ c :: l₂).map Candidate.distance)) c.distance = 10 := by
    rw [hmin, hzero]
    exact score_formula_zero_min
  have hkey : ∀ s ∈ scoreCandidates (l₁ ++ c :: l₂), s.score ≤ 10 ∧
      (s.score = 10 → s = ⟨c.name, c.image_url, c.distance, 10⟩) := by
    rw [hsc]
    intro s hs
    obtain ⟨x, hx, hxs⟩ := List.mem_map.mp hs
    have hxin : x ∈ l₁ ++ l₂ ∨ x = c := by
      rcases List.mem_append.mp hx with hx1 | hx2
      · exact Or.inl (List.mem_append.mpr (Or.inl hx1))
      · rcases List.mem_cons.mp hx2 with hxc | hx2
        · exact Or.inr hxc
        · exact Or.inl (List.mem_append.mpr (Or.inr hx2))
    rcases hxin with hxin | hxc
    · have hdpos : 0 < x.distance := hpos x hxin
      have hdle : x.distance ≤ listMax ((l₁ ++ c :: l₂).map Candidate.distance) :=
        le_listMax (List.mem_map.mpr ⟨x, hx, rfl⟩)
      have hlt : compute_normalized_score
          (listMin ((l₁ ++ c :: l₂).map Candidate.distance))
          (listMax ((l₁ ++ c :: l₂).map Candidate.distance)) x.distance < 10 := by
        rw [hmin]
        exact score_formula_pos_lt hdpos hdle
      constructor
      · rw [← hxs]
        exact le_of_lt hlt
      · intro hten
        rw [← hxs] at hten
        exact absurd hten (ne_of_lt hlt)
    · constructor
      · rw [← hxs, hxc]
        simp only [hscoreC]
        exact le_refl 10
      · intro _
        rw [← hxs, hxc]
        have h10 := hscoreC
        rw [hzero] at h10
        simp only [hzero, h10]
  have hcscored : (⟨c.name, c.image_url, c.distance, 10⟩ : Scored) ∈
      scoreCandidates (l₁ ++ c :: l₂) := by
    rw [hsc]
    have hmem := List.mem_map_of_mem (fun x : Candidate =>
      (⟨x.name, x.image_url, x.distance,
        compute_normalized_score
          (listMin ((l₁ ++ c :: l₂).map Candidate.distance))
          (listMax ((l₁ ++ c :: l₂).map Candidate.distance))
          x.distance⟩ : Scored)) hcmem
    have hmem2 : (⟨c.name, c.image_url, c.distance,
        compute_normalized_score
          (listMin ((l₁ ++ c :: l₂).map Candidate.distance))
          (listMax ((l₁ ++ c :: l₂).map Candidate.distance))
          c.distance⟩ : Scored) ∈ (l₁ ++ c :: l₂).map (fun x =>
        ⟨x.name, x.image_url, x.distance,
          compute_normalized_score
            (listMin ((l₁ ++ c :: l₂).map Candidate.distance))
            (listMax ((l₁ ++ c :: l₂).map Candidate.distance))
            x.distance⟩) := hmem
    rw [hscoreC] at hmem2
    exact hmem2
  obtain ⟨h, t, hs⟩ : ∃ h t, sortDesc (scoreCandidates (l₁ ++ c :: l₂)) = h :: t := by
    cases hcase : sortDesc (scoreCandidates (l₁ ++ c :: l₂)) with
    | nil =>
      have := mem_sortDesc.mpr hcscored
      rw [hcase] at this
      cases this
    | cons h t => exact ⟨h, t, rfl⟩
  have hhead : h = ⟨c.name, c.image_url, c.distance, 10⟩ := by
    have hmemh : h ∈ scoreCandidates (l₁ ++ c :: l₂) := by
      have : h ∈ sortDesc (scoreCandidates (l₁ ++ c :: l₂)) := by
        rw [hs]
        exact List.mem_cons_self h t
      exact mem_sortDesc.mp this
    have hcs : (⟨c.name, c.image_url, c.distance, 10⟩ : Scored) ∈ h :: t := by
      rw [← hs]
      exact mem_sortDesc.mpr hcscored
    rcases List.mem_cons.mp hcs with hch | hct
    · exact hch.symm
    · have hpair := sortDesc_sorted (scoreCandidates (l₁ ++ c :: l₂))
      rw [hs, List.pairwise_cons] at hpair
      have h10 : (10 : ℚ) ≤ h.score := by
        have := hpair.1 _ hct
        simpa using this
      have hle : h.score ≤ 10 := (hkey h hmemh).1
      exact (hkey h hmemh).2 (le_antisymm hle h10)
  have hktoNat : k.toNat = (k.toNat - 1) + 1 := by omega
  refine ⟨mkResults 1 (t.take (k.toNat - 1)), ?_⟩
  unfold rankCandidates
  rw [if_neg (by simp [hempty])]
  show Except.ok (mkResults 0 (pySlice k
    (sortDesc (scoreCandidates (l₁ ++ c :: l₂))))) = _
  rw [pySlice_of_nonneg (by omega), hs, hktoNat, List.take_succ_cons, hhead]
  show Except.ok (⟨0 + 1, c.name, round2 10, c.image_url⟩ ::
    mkResults (0 + 1) (t.take (k.toNat - 1))) = _
  rw [round2_ten]
  simp

/-- Claim C7 (round-trip): if the corpus contains an entry whose embedding
is exactly the query embedding (so its Euclidean distance is 0) and every
other valid candidate has strictly positive distance, that entry is
returned at rank 1 with similarity exactly 10.00. -/
theorem claim_C7_roundtrip (distf : List ℚ → List ℚ → ℚ) (user : List ℚ)
    (recs₁ recs₂ : List CatalogRecord) (rstar : CatalogRecord) (k : ℤ)
    (hq : rstar.embedding = user)
    (hdzero : distf user rstar.embedding = 0)
    (hstrict : ∀ r ∈ recs₁ ++ recs₂, r.embedding.length = user.length →
      0 < distf user r.embedding)
    (hk : 1 ≤ k) :
    ∃ rest, analyze_face distf
        (.ok ((recs₁ ++ rstar :: recs₂).length : ℤ))
        (recs₁ ++ rstar :: recs₂) user k =
      .ok (⟨1, rstar.name, 10, rstar.image_url⟩ :: rest) := by
  have hne : recs₁ ++ rstar :: recs₂ ≠ [] := by
    intro h
    have : rstar ∈ recs₁ ++ rstar :: recs₂ :=
      List.mem_append.mpr (Or.inr (List.mem_cons_self rstar recs₂))
    rw [h] at this
    cases this
  have hfetch : (fetchPages (recs₁ ++ rstar :: recs₂)
      (((recs₁ ++ rstar :: recs₂).length : ℕ) : ℤ)).1 = recs₁ ++ rstar :: recs₂ := by
    rw [fetchPages_eq hne]
  have hred : analyze_face distf (.ok ((recs₁ ++ rstar :: recs₂).length : ℤ))
      (recs₁ ++ rstar :: recs₂) user k =
      rankCandidates (buildCandidates distf user (recs₁ ++ rstar :: recs₂)) k := by
    show rankCandidates (buildCandidates distf user
      (fetchPages (recs₁ ++ rstar :: recs₂)
        (((recs₁ ++ rstar :: recs₂).length : ℕ) : ℤ)).1) k = _
    rw [hfetch]
  rw [hred]
  have hstar : buildCandidates distf user (rstar :: recs₂) =
      (⟨rstar.name, rstar.image_url, distf user rstar.embedding⟩ : Candidate) ::
        buildCandidates distf user recs₂ := by
    simp only [buildCandidates]
    rw [if_pos (by rw [hq])]
  rw [buildCandidates_append, hstar]
  have hczero : (⟨rstar.name, rstar.image_url,
      distf user rstar.embedding⟩ : Candidate).distance = 0 := hdzero
  have hpos : ∀ x ∈ buildCandidates distf user recs₁ ++
      buildCandidates distf user recs₂, 0 < x.distance := by
    intro x hx
    rcases List.mem_append.mp hx with hx1 | hx2
    · obtain ⟨r, hr, hlen, hxr⟩ := mem_buildCandidates.mp hx1
      rw [hxr]
      exact hstrict r (List.mem_append.mpr (Or.inl hr)) hlen
    · obtain ⟨r, hr, hlen, hxr⟩ := mem_buildCandidates.mp hx2
      rw [hxr]
      exact hstrict r (List.mem_append.mpr (Or.inr hr)) hlen
  exact rank_head_of_zero_strict_min _ _ _ k hczero hpos hk

/-- Claim C7 witness: a two-record corpus where "Q" carries exactly the
query embedding and "B" is at distance 2: "Q" is rank 1, similarity
10.00. -/
theorem claim_C7_roundtrip_witness :
    ∃ rest, analyze_face absDist
        (.ok ((([⟨"B", "uB", [2]⟩] ++ ⟨"Q", "uQ", [0]⟩ :: []) :
          List CatalogRecord).length : ℤ))
        ([⟨"B", "uB", [2]⟩] ++ ⟨"Q", "uQ", [0]⟩ :: []) [0] 2 =
      .ok (⟨1, "Q", 10, "uQ"⟩ :: rest) :=
  claim_C7_roundtrip absDist [0] [⟨"B", "uB", [2]⟩] [] ⟨"Q", "uQ", [0]⟩ 2
    (by decide) (by decide) (by decide) (by decide)

end CelebAPI
